import Mathlib

/-!
Verification of the Azure Blob Storage backup adapter
(`pkg/backup/abs/abs.go` of vdice/etcd-operator).

The adapter is embedded shallowly:

* Go's `path.Join` / `path.Clean` are re-implemented at the level of
  `List Char` segments (`splitOnChar`, `doClean`, `joinSegs`); Go cleans
  byte strings, the model cleans character strings, which agree on the
  ASCII keys this adapter handles.
* The Azure blob service is external vendor code (not part of this
  repository); it is modelled as the abstract object store of spec §4.1:
  a container is a finite association of blob names to byte contents,
  every primitive call either applies its documented update or fails with
  the injected fault for that (operation, name) pair.  Creating a block
  blob initializes the object and uploading a block makes the bytes
  durable under the name, per the spec's `put(key, bytes)` contract.
* Bytes are `Nat`, errors are `String`, Go's `(T, error)` returns are
  `Except String T` (or explicit tuples where the source returns several
  values, e.g. `list` returning `(int64, []string, error)` where the
  slice may be `nil` - modelled as `Option (List String)`).
-/

/-- Character-level split on a separator, mirroring how Go's `path.Clean`
scans a path byte string into `/`-separated elements. `splitOnChar c s`
always returns a non-empty list of (possibly empty) segments. -/
def splitOnChar (sep : Char) : List Char → List (List Char)
  | [] => [[]]
  | c :: cs =>
    match splitOnChar sep cs with
    | [] => if c = sep then [[], []] else [[c]]
    | s :: ss => if c = sep then [] :: s :: ss else (c :: s) :: ss

/-- Whether a path begins with `/` (Go `path.Clean`'s `rooted`). -/
def isRooted (l : List Char) : Bool :=
  match l with
  | [] => false
  | c :: _ => c == '/'

/-- The element loop of Go's `path.Clean`: skip empty and `.` elements,
let `..` backtrack (or accumulate when there is nothing left to pop and
the path is not rooted), push every other element.  The first argument is
the output stack (most recent element first). -/
def doClean (rooted : Bool) : List (List Char) → List (List Char) → List (List Char)
  | stack, [] => stack.reverse
  | stack, seg :: rest =>
    if seg = [] then doClean rooted stack rest
    else if seg = ['.'] then doClean rooted stack rest
    else if seg = ['.', '.'] then
      match stack with
      | [] => if rooted then doClean rooted [] rest else doClean rooted [seg] rest
      | top :: stk =>
        if top = ['.', '.'] then doClean rooted (seg :: stack) rest
        else doClean rooted stk rest
    else doClean rooted (seg :: stack) rest

/-- Rejoin cleaned elements with `/` (the output buffer of `path.Clean`). -/
def joinSegs : List (List Char) → List Char
  | [] => []
  | [s] => s
  | s :: rest => s ++ '/' :: joinSegs rest

/-- Go `path.Clean` on the character content of a path. -/
def cleanData (l : List Char) : String :=
  if l.isEmpty then "."
  else
    match doClean (isRooted l) [] (splitOnChar '/' l) with
    | [] => if isRooted l then "/" else "."
    | o :: os =>
      (if isRooted l then "/" else "") ++ String.mk (joinSegs (o :: os))

/-- Go `path.Clean`. -/
def pathClean (s : String) : String := cleanData s.data

/-- Go `strings.Join _ "/"`, as used by `path.Join`. -/
def joinSlash : List String → String
  | [] => ""
  | [s] => s
  | s :: rest => s ++ "/" ++ joinSlash rest

/-- Go `path.Join`: drop leading empty elements, join the rest with `/`
and clean the result; all-empty input yields the empty string. -/
def pathJoin (elems : List String) : String :=
  match elems.dropWhile (fun e => e == "") with
  | [] => ""
  | e :: es => pathClean (joinSlash (e :: es))

/-- The fixed schema-version segment (`const v1 = "v1/"`, abs.go line 29). -/
def v1 : String := "v1/"

/-- Boolean prefix test on character lists. -/
def pfxOf : List Char → List Char → Bool
  | [], _ => true
  | _ :: _, [] => false
  | a :: as, b :: bs => a == b && pfxOf as bs

/-- Whether string `p` is a leading prefix of string `s` (Azure's
server-side `Prefix` filter applied to blob names). -/
def hasPfx (p s : String) : Bool := pfxOf p.data s.data

/-- Drop the first `n` characters of a string (Go `s[n:]` on ASCII data,
used by `list` to strip `len(resp.Prefix)` bytes, abs.go line 129). -/
def strDrop (s : String) (n : Nat) : String := String.mk (s.data.drop n)

/-- Substring occurrence test (used to state what an error message does
not mention). -/
def containsSub (ndl : List Char) : List Char → Bool
  | [] => ndl.isEmpty
  | c :: rest => pfxOf ndl (c :: rest) || containsSub ndl rest

/-- Upsert into the container's association of blob names to contents. -/
def setBlob : List (String × List Nat) → String → List Nat → List (String × List Nat)
  | [], n, v => [(n, v)]
  | (m, w) :: rest, n, v =>
    if m = n then (n, v) :: rest else (m, w) :: setBlob rest n v

/-- Look a blob's content up by name. -/
def getBlob : List (String × List Nat) → String → Option (List Nat)
  | [], _ => none
  | (m, w) :: rest, n => if m = n then some w else getBlob rest n

/-- Remove a blob by name. -/
def removeBlob : List (String × List Nat) → String → List (String × List Nat)
  | [], _ => []
  | (m, w) :: rest, n => if m = n then rest else (m, w) :: removeBlob rest n

/-- The external Azure blob container, modelled as the abstract object
store of spec §4.1: its name, its blobs (name to content bytes), and the
injected faults - `(operation, name, message)` triples making that
primitive call on that name fail with that message. -/
structure BlobService where
  containerName : String
  blobs : List (String × List Nat)
  faults : List (String × String × String)
deriving DecidableEq

/-- The fault injected for a primitive `(operation, name)` call, if any. -/
def findFault (svc : BlobService) (op name : String) : Option String :=
  match svc.faults.find? (fun f => f.1 == op && f.2.1 == name) with
  | some f => some f.2.2
  | none => none

/-- Azure `Blob.CreateBlockBlob`: initializes the (empty) object. -/
def svcCreateBlockBlob (svc : BlobService) (name : String) : Except String BlobService :=
  match findFault svc "CreateBlockBlob" name with
  | some e => .error e
  | none => .ok { svc with blobs := setBlob svc.blobs name [] }

/-- Azure `Blob.PutBlock`: per the spec's `put(key, bytes)` contract the
uploaded block's bytes become the durable content of the blob; the
`blockID` (base64 of 6 random letters in the source) does not affect the
stored bytes. -/
def svcPutBlock (svc : BlobService) (name : String) (blockID : List Nat)
    (chunk : List Nat) : Except String BlobService :=
  match findFault svc "PutBlock" name with
  | some e => .error e
  | none =>
    let _ := blockID
    .ok { svc with blobs := setBlob svc.blobs name chunk }

/-- Azure `Blob.Get`: the readable stream of the blob's bytes, or a
not-found error. -/
def svcGetBlob (svc : BlobService) (name : String) : Except String (List Nat) :=
  match findFault svc "GetBlob" name with
  | some e => .error e
  | none =>
    match getBlob svc.blobs name with
    | some bs => .ok bs
    | none => .error ("BlobNotFound: " ++ name)

/-- Azure `Blob.Delete`: removes the blob, failing on a missing name. -/
def svcDeleteBlob (svc : BlobService) (name : String) : Except String BlobService :=
  match findFault svc "DeleteBlob" name with
  | some e => .error e
  | none =>
    match getBlob svc.blobs name with
    | some _ => .ok { svc with blobs := removeBlob svc.blobs name }
    | none => .error ("BlobNotFound: " ++ name)

/-- Azure `Container.ListBlobs` with a `Prefix` parameter: every blob
whose name starts with the prefix, with its content length, in catalog
order. -/
def svcListBlobs (svc : BlobService) (p : String) :
    Except String (List (String × Nat)) :=
  match findFault svc "ListBlobs" p with
  | some e => .error e
  | none =>
    .ok ((svc.blobs.filter (fun b => hasPfx p b.1)).map (fun b => (b.1, b.2.length)))

/-- Azure `Blob.Copy destination src`: `src` is a `container/blobName`
resource path; the source blob's bytes become the destination blob's
content. -/
def svcCopy (svc : BlobService) (dstName srcPath : String) : Except String BlobService :=
  match findFault svc "Copy" dstName with
  | some e => .error e
  | none =>
    if hasPfx (svc.containerName ++ "/") srcPath then
      match getBlob svc.blobs (strDrop srcPath (svc.containerName ++ "/").length) with
      | some bs => .ok { svc with blobs := setBlob svc.blobs dstName bs }
      | none => .error ("CannotVerifyCopySource: " ++ srcPath)
    else .error ("InvalidCopySource: " ++ srcPath)

/-- The `ABS` helper struct (abs.go lines 33-37).  `pfx` models the
source field `prefix` (renamed in the embedding); the `container` and
`client` references are represented by passing the `BlobService` state
explicitly to every operation. -/
structure ABS where
  pfx : String
deriving DecidableEq

/-- The blob name `Put` writes to: `path.Join(v1, w.prefix, key)`
(abs.go line 70). -/
def putName (w : ABS) (key : String) : String := pathJoin [v1, w.pfx, key]

/-- The blob name `Get` reads from: `path.Join(v1, w.prefix, key)`
(abs.go line 90). -/
def getName (w : ABS) (key : String) : String := pathJoin [v1, w.pfx, key]

/-- The blob name `Delete` removes: `path.Join(v1, w.prefix, key)`
(abs.go line 104). -/
def deleteName (w : ABS) (key : String) : String := pathJoin [v1, w.pfx, key]

/-- The 52-letter block-ID alphabet (abs.go line 161), as byte values. -/
def letterBytes : List Nat :=
  "abcdefghijklmnopqrstuvwxyzABCDEFGHIJKLMNOPQRSTUVWXYZ".data.map Char.toNat

/-- `randBytes` (abs.go lines 160-168).  `rnd i` models the `i`-th
`rand.Int63()` draw (a non-negative machine integer, hence a `Nat`); each
output byte is `letterBytes[rnd i % len(letterBytes)]`, and the index
proof shows the table access is always in bounds. -/
def randBytes (rnd : Nat → Nat) (n : Nat) : List Nat :=
  (List.range n).map fun i =>
    letterBytes.get ⟨rnd i % letterBytes.length, Nat.mod_lt _ (by decide)⟩

/-- `Put` (abs.go lines 69-86): create the block blob, then upload one
block whose ID is built from `randBytes 6`; each failing primitive call
is wrapped with the operation's description. -/
def ABS.Put (w : ABS) (svc : BlobService) (rnd : Nat → Nat) (key : String)
    (chunk : List Nat) : Except String BlobService :=
  match svcCreateBlockBlob svc (putName w key) with
  | .error err => .error ("create block blob failed: " ++ err)
  | .ok svc₁ =>
    match svcPutBlock svc₁ (putName w key) (randBytes rnd 6) chunk with
    | .error err => .error ("put block failed: " ++ err)
    | .ok svc₂ => .ok svc₂

/-- `Get` (abs.go lines 89-100): read the blob, propagating a failure
unchanged. -/
def ABS.Get (w : ABS) (svc : BlobService) (key : String) : Except String (List Nat) :=
  match svcGetBlob svc (getName w key) with
  | .error err => .error err
  | .ok resp => .ok resp

/-- `Delete` (abs.go lines 103-111): delete the blob, returning the
primitive call's error unchanged. -/
def ABS.Delete (w : ABS) (svc : BlobService) (key : String) : Except String BlobService :=
  svcDeleteBlob svc (deleteName w key)

/-- The listing prefix `path.Join(v1, prefix) + "/"` (abs.go line 120). -/
def listPfx (p : String) : String := pathJoin [v1, p] ++ "/"

/-- The accumulation loop of `list` (abs.go lines 126-132): for every
listed blob, append its name with the first `pfxLen` characters stripped
and add its content length to the running size. -/
def listAccum (pfxLen : Nat) : List (String × Nat) → List String × Int
  | [] => ([], 0)
  | b :: rest =>
    let r := listAccum pfxLen rest
    (strDrop b.1 pfxLen :: r.1, (b.2 : Int) + r.2)

/-- `list` (abs.go lines 119-135), returning Go's
`(int64, []string, error)` triple: `(-1, nil, err)` when the listing
call fails, otherwise the size, the non-nil stripped key slice, and no
error. -/
def ABS.list (w : ABS) (svc : BlobService) (p : String) :
    Int × Option (List String) × Option String :=
  match svcListBlobs svc (listPfx p) with
  | .error e => (-1, none, some e)
  | .ok blobs =>
    ((listAccum (listPfx p).length blobs).2,
      some (listAccum (listPfx p).length blobs).1, none)

/-- `List` (abs.go lines 114-117): drop the size from `list`. -/
def ABS.List (w : ABS) (svc : BlobService) : Option (List String) × Option String :=
  match w.list svc w.pfx with
  | (_, l, err) => (l, err)

/-- `TotalSize` (abs.go lines 138-141): drop the keys from `list`. -/
def ABS.TotalSize (w : ABS) (svc : BlobService) : Int × Option String :=
  match w.list svc w.pfx with
  | (size, _, err) => (size, err)

/-- The copy loop of `CopyPrefix` (abs.go lines 149-156): for each listed
(stripped) key, copy `container.Name/v1/from/key` onto the blob named by
the bare key, stopping at the first failure.  Returns the service state
reached and the first error, if any. -/
def copyLoop (svc : BlobService) (frm : String) :
    List String → BlobService × Option String
  | [] => (svc, none)
  | b :: rest =>
    match svcCopy svc b (pathJoin [svc.containerName, v1, frm, b]) with
    | .error e => (svc, some e)
    | .ok svc' => copyLoop svc' frm rest

/-- `CopyPrefix` (abs.go lines 144-158): list the source prefix, then run
the copy loop; a listing failure is returned at once. -/
def ABS.CopyPrefix (w : ABS) (svc : BlobService) (frm : String) :
    BlobService × Option String :=
  match w.list svc frm with
  | (_, _, some e) => (svc, some e)
  | (_, some keys, none) => copyLoop svc frm keys
  | (_, none, none) => (svc, none)

/-- Modelled from the spec: ASCII digit of a decimal digit value. -/
def digitChar (d : Nat) : Char := Char.ofNat (48 + d)

/-- Modelled from the spec: decimal digit value of an ASCII digit. -/
def digitVal (c : Char) : Nat := c.toNat - 48

/-- Modelled from the spec: fuelled decimal rendering of a natural
number, most significant digit first. -/
def toDecimalAux : Nat → Nat → List Char
  | 0, _ => []
  | fuel + 1, n =>
    if n < 10 then [digitChar n]
    else toDecimalAux fuel (n / 10) ++ [digitChar (n % 10)]

/-- Modelled from the spec: decimal rendering of a natural number. -/
def toDecimal (n : Nat) : List Char := toDecimalAux (n + 1) n

/-- Modelled from the spec: parse a decimal digit string. -/
def ofDecimal (l : List Char) : Nat := l.foldl (fun a c => a * 10 + digitVal c) 0

/-- Modelled from the spec: the snapshot name encoder (the backup
backend's `makeBackupName` is not under `src/`).  Spec §6: the name is
`<version>_<revision>` with the revision zero-padded to a fixed width,
chosen here as 16 digits and documented as part of the format. -/
def encodeName (version : String) (revision : Nat) : String :=
  version ++ "_" ++
    String.mk (List.replicate (16 - (toDecimal revision).length) '0' ++ toDecimal revision)

/-- Modelled from the spec: the snapshot name decoder.  Splitting on the
`_` separator must yield exactly a version and a non-empty all-digit
revision field; anything else is rejected as malformed (spec §4.2). -/
def decodeName (name : String) : Option (String × Nat) :=
  match splitOnChar '_' name.data with
  | [v, r] =>
    if r ≠ [] ∧ r.all Char.isDigit then some (String.mk v, ofDecimal r) else none
  | _ => none

/-- A valid version string per spec §3: non-empty, dot-separated numeric
components - so every character is a digit or a dot. -/
def validVersion (version : String) : Prop :=
  version.data ≠ [] ∧ ∀ c ∈ version.data, c.isDigit = true ∨ c = '.'

/-- A plain single path segment: non-empty, not a dot element, and free
of separators - the shape of every key the retention engine derives
(encoded snapshot names contain no `/`). -/
def simpleSeg (s : String) : Prop :=
  s.data ≠ [] ∧ s.data ≠ ['.'] ∧ s.data ≠ ['.', '.'] ∧ '/' ∉ s.data

instance instDecSimpleSeg (s : String) : Decidable (simpleSeg s) := by
  unfold simpleSeg
  infer_instance

instance instDecValidVersion (s : String) : Decidable (validVersion s) := by
  unfold validVersion
  infer_instance

/-- A deterministic stand-in for the `rand.Int63()` stream, for concrete
evaluations. -/
def rnd0 : Nat → Nat := fun _ => 0

/-- An adapter configured with the logical prefix `p`. -/
def absW : ABS := ⟨"p"⟩

/-- An empty container, no faults. -/
def svcEmpty : BlobService := ⟨"cnt", [], []⟩

/-- The container state after a successful `Put` of bytes `[9, 8]` under
key `k` through `absW`. -/
def svcPutDone : BlobService := ⟨"cnt", [("v1/p/k", [9, 8])], []⟩

/-- A catalog holding two blobs under `v1/p/` and one foreign blob. -/
def svcCatalog : BlobService :=
  ⟨"cnt", [("v1/p/a", [1]), ("other/x", [2]), ("v1/p/b", [3, 4])], []⟩

/-- A container whose listing call under `v1/p/` fails with `down`. -/
def svcListDown : BlobService :=
  ⟨"cnt", [("v1/p/x", [1])], [("ListBlobs", "v1/p/", "down")]⟩

/-- A container whose delete of `v1/p/k` fails with `boom`. -/
def svcDeleteBoom : BlobService :=
  ⟨"cnt", [("v1/p/k", [7])], [("DeleteBlob", "v1/p/k", "boom")]⟩

/-- A container whose block-blob creation under `v1/p/k` fails. -/
def svcCreateFail : BlobService := ⟨"cnt", [], [("CreateBlockBlob", "v1/p/k", "e1")]⟩

/-- A container whose block upload under `v1/p/k` fails. -/
def svcBlockFail : BlobService := ⟨"cnt", [], [("PutBlock", "v1/p/k", "e2")]⟩

/-- The intermediate state of a `Put` against `svcBlockFail` after its
successful `CreateBlockBlob` call. -/
def svcBlockFailMid : BlobService :=
  ⟨"cnt", [("v1/p/k", [])], [("PutBlock", "v1/p/k", "e2")]⟩

/-- A container whose read of `v1/p/k` fails with `e3`. -/
def svcGetFail : BlobService := ⟨"cnt", [("v1/p/k", [7])], [("GetBlob", "v1/p/k", "e3")]⟩

/-- A container holding one staged backup blob, no faults. -/
def svcStaged : BlobService := ⟨"cnt", [("v1/staged/x", [1, 2, 3])], []⟩

/-- Two staged blobs; copying onto destination `b1` fails at once. -/
def svcCopyFailA : BlobService :=
  ⟨"cnt", [("v1/staged/b1", [1]), ("v1/staged/b2", [2])], [("Copy", "b1", "fail1")]⟩

/-- Two staged blobs; only copying onto destination `b2` fails. -/
def svcCopyFailB : BlobService :=
  ⟨"cnt", [("v1/staged/b1", [1]), ("v1/staged/b2", [2])], [("Copy", "b2", "fail2")]⟩

/-- The state of `svcCopyFailB` after the first copy (of `b1`) landed. -/
def svcCopyFailBMid : BlobService :=
  ⟨"cnt", [("v1/staged/b1", [1]), ("v1/staged/b2", [2]), ("b1", [1])],
    [("Copy", "b2", "fail2")]⟩

theorem strData_append (a b : String) : (a ++ b).data = a.data ++ b.data := rfl

theorem str_append_mk (a : String) (l : List Char) :
    a ++ String.mk l = String.mk (a.data ++ l) := rfl

theorem splitOnChar_cons (sep c : Char) (cs : List Char) :
    splitOnChar sep (c :: cs)
      = match splitOnChar sep cs with
        | [] => if c = sep then [[], []] else [[c]]
        | s :: ss => if c = sep then [] :: s :: ss else (c :: s) :: ss := rfl

theorem splitOnChar_ne_nil (sep : Char) (l : List Char) : splitOnChar sep l ≠ [] := by
  induction l with
  | nil => simp [splitOnChar]
  | cons c cs ih =>
    rw [splitOnChar_cons]
    rcases h : splitOnChar sep cs with _ | ⟨s, ss⟩
    · exact absurd h ih
    · show (if c = sep then [] :: s :: ss else (c :: s) :: ss) ≠ []
      split <;> simp

theorem splitOnChar_no_sep (sep : Char) (a : List Char) (h : sep ∉ a) :
    splitOnChar sep a = [a] := by
  induction a with
  | nil => rfl
  | cons c cs ih =>
    rw [List.mem_cons] at h
    push_neg at h
    obtain ⟨h1, h2⟩ := h
    rw [splitOnChar_cons, ih h2]
    show (if c = sep then [] :: cs :: [] else (c :: cs) :: []) = [c :: cs]
    rw [if_neg (fun hc => h1 hc.symm)]

theorem splitOnChar_append (sep : Char) (a b : List Char) (h : sep ∉ a) :
    splitOnChar sep (a ++ sep :: b) = a :: splitOnChar sep b := by
  induction a with
  | nil =>
    rw [List.nil_append, splitOnChar_cons]
    rcases hb : splitOnChar sep b with _ | ⟨s, ss⟩
    · exact absurd hb (splitOnChar_ne_nil sep b)
    · show (if sep = sep then [] :: s :: ss else (sep :: s) :: ss) = [] :: s :: ss
      rw [if_pos rfl]
  | cons c cs ih =>
    rw [List.mem_cons] at h
    push_neg at h
    obtain ⟨h1, h2⟩ := h
    rw [List.cons_append, splitOnChar_cons, ih h2]
    show (if c = sep then [] :: cs :: splitOnChar sep b
          else (c :: cs) :: splitOnChar sep b) = (c :: cs) :: splitOnChar sep b
    rw [if_neg (fun hc => h1 hc.symm)]

theorem doClean_fin (r : Bool) (st : List (List Char)) : doClean r st [] = st.reverse := rfl

theorem doClean_skip (r : Bool) (st : List (List Char)) (rest : List (List Char)) :
    doClean r st ([] :: rest) = doClean r st rest := by
  simp [doClean]

theorem doClean_push (r : Bool) (st : List (List Char)) (seg : List Char)
    (rest : List (List Char)) (h1 : seg ≠ []) (h2 : seg ≠ ['.'])
    (h3 : seg ≠ ['.', '.']) :
    doClean r st (seg :: rest) = doClean r (seg :: st) rest := by
  simp only [doClean]
  rw [if_neg h1, if_neg h2, if_neg h3]

theorem cleanData_v1 (p k : List Char)
    (hp1 : p ≠ []) (hp2 : p ≠ ['.']) (hp3 : p ≠ ['.', '.']) (hp4 : '/' ∉ p)
    (hk1 : k ≠ []) (hk2 : k ≠ ['.']) (hk3 : k ≠ ['.', '.']) (hk4 : '/' ∉ k) :
    cleanData ('v' :: '1' :: '/' :: '/' :: (p ++ '/' :: k))
      = String.mk ('v' :: '1' :: '/' :: (p ++ '/' :: k)) := by
  have hsplit : splitOnChar '/' ('v' :: '1' :: '/' :: '/' :: (p ++ '/' :: k))
      = [['v', '1'], [], p, k] := by
    have h3 := splitOnChar_append '/' ['v', '1'] ('/' :: (p ++ '/' :: k)) (by decide)
    have h4 := splitOnChar_append '/' ([] : List Char) (p ++ '/' :: k) (by decide)
    have h1 := splitOnChar_append '/' p k hp4
    have h2 := splitOnChar_no_sep '/' k hk4
    simp only [List.cons_append, List.nil_append] at h3 h4
    rw [h3, h4, h1, h2]
  have hclean : doClean false []
      (splitOnChar '/' ('v' :: '1' :: '/' :: '/' :: (p ++ '/' :: k)))
      = [['v', '1'], p, k] := by
    rw [hsplit]
    rw [doClean_push _ _ _ _ (by decide) (by decide) (by decide)]
    rw [doClean_skip]
    rw [doClean_push _ _ _ _ hp1 hp2 hp3]
    rw [doClean_push _ _ _ _ hk1 hk2 hk3]
    rfl
  unfold cleanData
  rw [show isRooted ('v' :: '1' :: '/' :: '/' :: (p ++ '/' :: k)) = false from rfl]
  rw [hclean]
  rfl

theorem pathJoin_v1 (p k : String) (hp : simpleSeg p) (hk : simpleSeg k) :
    pathJoin [v1, p, k] = "v1/" ++ p ++ "/" ++ k := by
  obtain ⟨hp1, hp2, hp3, hp4⟩ := hp
  obtain ⟨hk1, hk2, hk3, hk4⟩ := hk
  show cleanData ((v1 ++ "/" ++ (p ++ "/" ++ k)).data) = "v1/" ++ p ++ "/" ++ k
  have hdata : (v1 ++ "/" ++ (p ++ "/" ++ k)).data
      = 'v' :: '1' :: '/' :: '/' :: (p.data ++ '/' :: k.data) := by
    show 'v' :: '1' :: '/' :: '/' :: ((p.data ++ ['/']) ++ k.data)
        = 'v' :: '1' :: '/' :: '/' :: (p.data ++ '/' :: k.data)
    simp
  rw [hdata]
  rw [cleanData_v1 p.data k.data hp1 hp2 hp3 hp4 hk1 hk2 hk3 hk4]
  have hout : ('v' :: '1' :: '/' :: (p.data ++ '/' :: k.data))
      = ("v1/" ++ p ++ "/" ++ k).data := by
    show ('v' :: '1' :: '/' :: (p.data ++ '/' :: k.data))
        = (('v' :: '1' :: '/' :: p.data) ++ ['/']) ++ k.data
    simp
  rw [hout]

/-- C2: `Put`, `Get` and `Delete` all address the same stored object
name, the fixed schema-version segment followed by the adapter's
configured prefix followed by the key (`v1/<prefix>/<key>`), whenever
the prefix and the key are plain path segments. -/
theorem blob_name_layout (w : ABS) (key : String) (hp : simpleSeg w.pfx)
    (hk : simpleSeg key) :
    (putName w key = getName w key ∧ getName w key = deleteName w key) ∧
    putName w key = "v1/" ++ w.pfx ++ "/" ++ key :=
  ⟨⟨rfl, rfl⟩, pathJoin_v1 w.pfx key hp hk⟩

theorem blob_name_layout_case :
    simpleSeg "backup" ∧ simpleSeg "snap" ∧
    ((putName ⟨"backup"⟩ "snap" = getName ⟨"backup"⟩ "snap" ∧
      getName ⟨"backup"⟩ "snap" = deleteName ⟨"backup"⟩ "snap") ∧
     putName ⟨"backup"⟩ "snap" = "v1/" ++ "backup" ++ "/" ++ "snap") :=
  ⟨by decide, by decide, blob_name_layout ⟨"backup"⟩ "snap" (by decide) (by decide)⟩

theorem getBlob_set (l : List (String × List Nat)) (n : String) (v : List Nat) :
    getBlob (setBlob l n v) n = some v := by
  induction l with
  | nil => simp [setBlob, getBlob]
  | cons b rest ih =>
    obtain ⟨m, c⟩ := b
    simp only [setBlob]
    by_cases hm : m = n
    · rw [if_pos hm]
      simp [getBlob]
    · rw [if_neg hm]
      simp [getBlob, hm, ih]

/-- C1: reading back via `Get` the key just written via `Put` yields
exactly the bytes that were written, provided both calls succeed. -/
theorem put_get_round_trip (w : ABS) (svc : BlobService) (rnd : Nat → Nat)
    (key : String) (chunk : List Nat) (svc' : BlobService) (bs : List Nat)
    (hput : w.Put svc rnd key chunk = .ok svc')
    (hget : w.Get svc' key = .ok bs) : bs = chunk := by
  unfold ABS.Put at hput
  split at hput
  · exact absurd hput (by simp)
  next svc₁ hcr =>
    split at hput
    · exact absurd hput (by simp)
    next svc₂ hpb =>
      injection hput with hok
      subst hok
      unfold svcPutBlock at hpb
      split at hpb
      · exact absurd hpb (by simp)
      · injection hpb with hmid
        subst hmid
        unfold ABS.Get at hget
        split at hget
        · exact absurd hget (by simp)
        next resp hresp =>
          injection hget with hgetv
          unfold svcGetBlob at hresp
          split at hresp
          · exact absurd hresp (by simp)
          · split at hresp
            next bs' hbs =>
              injection hresp with hrespv
              rw [show getName w key = putName w key from rfl] at hbs
              simp only [getBlob_set] at hbs
              injection hbs with hv
              rw [← hgetv, ← hrespv, ← hv]
            next hbs => exact absurd hresp (by simp)

theorem put_get_round_trip_case :
    ABS.Put absW svcEmpty rnd0 "k" [9, 8] = .ok svcPutDone ∧
    ABS.Get absW svcPutDone "k" = .ok [9, 8] ∧ ([9, 8] : List Nat) = [9, 8] :=
  ⟨rfl, rfl, put_get_round_trip absW svcEmpty rnd0 "k" [9, 8] svcPutDone [9, 8] rfl rfl⟩

/-- C8: `randBytes n` returns exactly `n` bytes, each taken from the
52-letter table, and the index `rnd i % len(letterBytes)` is always
within the bounds of the table, so the construction cannot panic. -/
theorem rand_bytes_safe (rnd : Nat → Nat) (n : Nat) :
    (randBytes rnd n).length = n ∧
    (∀ b ∈ randBytes rnd n, b ∈ letterBytes) ∧
    letterBytes.length = 52 ∧
    (∀ r : Nat, r % letterBytes.length < letterBytes.length) := by
  refine ⟨by simp [randBytes], ?_, by decide, fun r => Nat.mod_lt _ (by decide)⟩
  intro b hb
  simp only [randBytes, List.mem_map] at hb
  obtain ⟨i, _, rfl⟩ := hb
  exact List.get_mem _ _ _

theorem pfxOf_self_append (a t : List Char) : pfxOf a (a ++ t) = true := by
  induction a with
  | nil => rfl
  | cons c cs ih => simp [pfxOf, ih]

theorem pfxOf_exists (a b : List Char) (h : pfxOf a b = true) : ∃ t, a ++ t = b := by
  induction a generalizing b with
  | nil => exact ⟨b, rfl⟩
  | cons c cs ih =>
    cases b with
    | nil => simp [pfxOf] at h
    | cons d ds =>
      simp only [pfxOf, Bool.and_eq_true, beq_iff_eq] at h
      obtain ⟨h1, h2⟩ := h
      obtain ⟨t, ht⟩ := ih ds h2
      exact ⟨t, by rw [List.cons_append, ht, h1]⟩

theorem hasPfx_self (p k : String) : hasPfx p (p ++ k) = true := by
  show pfxOf p.data (p ++ k).data = true
  rw [strData_append]
  exact pfxOf_self_append p.data k.data

theorem strDrop_append (p k : String) : strDrop (p ++ k) p.length = k := by
  show String.mk ((p.data ++ k.data).drop p.data.length) = k
  rw [List.drop_left]

theorem hasPfx_append_drop (p s : String) (h : hasPfx p s = true) :
    p ++ strDrop s p.length = s := by
  obtain ⟨t, ht⟩ := pfxOf_exists p.data s.data h
  have hd : s.data.drop p.length = t := by
    rw [← ht]
    exact List.drop_left p.data t
  show p ++ String.mk (s.data.drop p.length) = s
  rw [hd, str_append_mk, ht]

theorem listAccum_spec (n : Nat) (l : List (String × Nat)) :
    listAccum n l
      = (l.map (fun b => strDrop b.1 n), (l.map (fun b => (b.2 : Int))).sum) := by
  induction l with
  | nil => rfl
  | cons b rest ih => simp [listAccum, ih]

/-- What a successful `list` call returns: the stripped keys of exactly
the blobs under the listing prefix, in catalog order, and the sum of
their content lengths. -/
theorem list_core (w : ABS) (svc : BlobService) (p : String) (sz : Int)
    (keys : List String) (h : w.list svc p = (sz, some keys, none)) :
    keys = (svc.blobs.filter (fun b => hasPfx (listPfx p) b.1)).map
      (fun b => strDrop b.1 (listPfx p).length) ∧
    sz = ((svc.blobs.filter (fun b => hasPfx (listPfx p) b.1)).map
      (fun b => (b.2.length : Int))).sum := by
  unfold ABS.list at h
  split at h
  · exact absurd h (by simp)
  next blobs heq =>
    unfold svcListBlobs at heq
    split at heq
    · exact absurd heq (by simp)
    · injection heq with hb
      rw [listAccum_spec] at h
      simp only [Prod.mk.injEq, Option.some.injEq] at h
      obtain ⟨hsz, hkeys, -⟩ := h
      subst hb
      constructor
      · rw [← hkeys, List.map_map]
        rfl
      · rw [← hsz, List.map_map]
        rfl

/-- C3: a successful `List` returns exactly the keys of all blobs whose
full name begins with the schema-version segment plus the configured
prefix, each with that leading prefix stripped, with no further
filtering. -/
theorem list_returns_stripped_keys (w : ABS) (svc : BlobService)
    (keys : List String) (h : w.List svc = (some keys, none)) :
    keys = (svc.blobs.filter (fun b => hasPfx (listPfx w.pfx) b.1)).map
      (fun b => strDrop b.1 (listPfx w.pfx).length) ∧
    ∀ k, k ∈ keys ↔ ∃ c, (listPfx w.pfx ++ k, c) ∈ svc.blobs := by
  rcases hw : w.list svc w.pfx with ⟨sz, l, err⟩
  unfold ABS.List at h
  rw [hw] at h
  simp only [Prod.mk.injEq] at h
  obtain ⟨hl, herr⟩ := h
  subst hl
  subst herr
  obtain ⟨hkeys, -⟩ := list_core w svc w.pfx sz keys hw
  refine ⟨hkeys, ?_⟩
  subst hkeys
  intro k
  constructor
  · intro hk
    rcases List.mem_map.mp hk with ⟨b, hbf, rfl⟩
    rcases List.mem_filter.mp hbf with ⟨hbs, hpfx⟩
    refine ⟨b.2, ?_⟩
    have hb1 : listPfx w.pfx ++ strDrop b.1 (listPfx w.pfx).length = b.1 :=
      hasPfx_append_drop _ _ hpfx
    rw [hb1]
    exact hbs
  · intro hc
    obtain ⟨c, hc⟩ := hc
    refine List.mem_map.mpr ⟨(listPfx w.pfx ++ k, c), List.mem_filter.mpr ⟨hc, ?_⟩, ?_⟩
    · exact hasPfx_self _ _
    · exact strDrop_append _ _

theorem list_returns_stripped_keys_case :
    ABS.List absW svcCatalog = (some ["a", "b"], none) ∧
    (["a", "b"] = (svcCatalog.blobs.filter
        (fun b => hasPfx (listPfx absW.pfx) b.1)).map
      (fun b => strDrop b.1 (listPfx absW.pfx).length) ∧
     ∀ k, k ∈ ["a", "b"] ↔ ∃ c, (listPfx absW.pfx ++ k, c) ∈ svcCatalog.blobs) :=
  ⟨rfl, list_returns_stripped_keys absW svcCatalog ["a", "b"] rfl⟩

/-- C5: a successful `TotalSize` returns the exact integer sum of the
content lengths of all blobs under the schema-version segment plus the
configured prefix. -/
theorem total_size_sum (w : ABS) (svc : BlobService) (n : Int)
    (h : w.TotalSize svc = (n, none)) :
    n = ((svc.blobs.filter (fun b => hasPfx (listPfx w.pfx) b.1)).map
      (fun b => (b.2.length : Int))).sum := by
  rcases hw : w.list svc w.pfx with ⟨sz, l, err⟩
  unfold ABS.TotalSize at h
  rw [hw] at h
  simp only [Prod.mk.injEq] at h
  obtain ⟨hn, herr⟩ := h
  subst hn
  subst herr
  rcases l with _ | keys
  · exact absurd hw (by
      unfold ABS.list
      split
      · simp
      · simp)
  · exact (list_core w svc w.pfx sz keys hw).2

theorem total_size_sum_case :
    ABS.TotalSize absW svcCatalog = (3, none) ∧
    (3 : Int) = ((svcCatalog.blobs.filter
        (fun b => hasPfx (listPfx absW.pfx) b.1)).map
      (fun b => (b.2.length : Int))).sum :=
  ⟨rfl, total_size_sum absW svcCatalog 3 rfl⟩

/-- C9: a failing listing makes `TotalSize` return `-1` (not `0`) with
the error and `List` return a nil slice with the error; a successful
listing of an empty catalog makes `List` return an empty but non-nil
slice and `TotalSize` return `0` with no error. -/
theorem list_failure_empty_shape (w : ABS) (svc : BlobService) :
    (∀ e, svcListBlobs svc (listPfx w.pfx) = .error e →
      w.TotalSize svc = (-1, some e) ∧ w.List svc = (none, some e)) ∧
    (svcListBlobs svc (listPfx w.pfx) = .ok [] →
      w.List svc = (some [], none) ∧ w.TotalSize svc = (0, none)) := by
  constructor
  · intro e he
    unfold ABS.TotalSize ABS.List ABS.list
    rw [he]
    exact ⟨rfl, rfl⟩
  · intro he
    unfold ABS.TotalSize ABS.List ABS.list
    rw [he]
    exact ⟨rfl, rfl⟩

theorem list_failure_empty_shape_case :
    (ABS.TotalSize absW svcListDown = (-1, some "down") ∧
     ABS.List absW svcListDown = (none, some "down")) ∧
    (ABS.List absW svcEmpty = (some [], none) ∧
     ABS.TotalSize absW svcEmpty = (0, none)) :=
  ⟨(list_failure_empty_shape absW svcListDown).1 "down" rfl,
   (list_failure_empty_shape absW svcEmpty).2 rfl⟩

/-- C4 (code defect): `CopyPrefix` names each destination blob with the
bare relative key instead of `v1/<own-prefix>/<relative-key>`.  Against
a container holding `v1/staged/x`, an adapter configured with prefix
`live` reports success, yet the copy lands at the container root under
`x` and nothing is created under `v1/live/x`. -/
theorem copy_dest_drops_own_pfx_eval :
    (ABS.CopyPrefix ⟨"live"⟩ svcStaged "staged").2 = none ∧
    getBlob (ABS.CopyPrefix ⟨"live"⟩ svcStaged "staged").1.blobs "x"
      = some [1, 2, 3] ∧
    getBlob (ABS.CopyPrefix ⟨"live"⟩ svcStaged "staged").1.blobs "v1/live/x"
      = none :=
  ⟨rfl, rfl, rfl⟩

/-- C10: the copy loop of `CopyPrefix` stops at the first failing copy
and returns that error unchanged - earlier copies have already landed in
the service state, later keys are not attempted - and a successfully
listed catalog hands its key list straight to the loop. -/
theorem copy_stops_at_first_error (w : ABS) (svc : BlobService) (frm b : String)
    (rest : List String) :
    (∀ e, svcCopy svc b (pathJoin [svc.containerName, v1, frm, b]) = .error e →
      copyLoop svc frm (b :: rest) = (svc, some e)) ∧
    (∀ svc', svcCopy svc b (pathJoin [svc.containerName, v1, frm, b]) = .ok svc' →
      copyLoop svc frm (b :: rest) = copyLoop svc' frm rest) ∧
    (∀ sz keys, w.list svc frm = (sz, some keys, none) →
      w.CopyPrefix svc frm = copyLoop svc frm keys) := by
  refine ⟨?_, ?_, ?_⟩
  · intro e he
    simp only [copyLoop, he]
  · intro svc' hs
    simp only [copyLoop, hs]
  · intro sz keys hl
    unfold ABS.CopyPrefix
    rw [hl]

theorem copy_stops_at_first_error_case :
    ABS.CopyPrefix ⟨"live"⟩ svcCopyFailA "staged" = (svcCopyFailA, some "fail1") ∧
    copyLoop svcCopyFailB "staged" ["b1", "b2"] = (svcCopyFailBMid, some "fail2") := by
  constructor
  · exact ((copy_stops_at_first_error ⟨"live"⟩ svcCopyFailA "staged" "b1" ["b2"]).2.2
      2 ["b1", "b2"] rfl).trans
      ((copy_stops_at_first_error ⟨"live"⟩ svcCopyFailA "staged" "b1" ["b2"]).1
        "fail1" rfl)
  · exact ((copy_stops_at_first_error ⟨"live"⟩ svcCopyFailB "staged" "b1" ["b2"]).2.1
      svcCopyFailBMid rfl).trans
      ((copy_stops_at_first_error ⟨"live"⟩ svcCopyFailBMid "staged" "b2" []).1
        "fail2" rfl)

/-- C6 (counterexample): a failing `Delete` hands the underlying store
error to the caller verbatim - the returned message mentions neither the
key nor the operation, so the error is not wrapped with the operation
and the key. -/
theorem delete_error_not_wrapped :
    ABS.Delete absW svcDeleteBoom "k" = .error "boom" ∧
    containsSub "k".data "boom".data = false ∧
    containsSub "Delete".data "boom".data = false :=
  ⟨rfl, rfl, rfl⟩

/-- C6 (amended): every failing store call surfaces to the caller, but
only `Put` wraps the error, and only with the failing operation's
description - `create block blob failed` or `put block failed` - never
with the key; `Get` and `Delete` return the store's error unchanged. -/
theorem error_propagation_shape (w : ABS) (svc : BlobService) (rnd : Nat → Nat)
    (key : String) (chunk : List Nat) (e : String) :
    (svcCreateBlockBlob svc (putName w key) = .error e →
      w.Put svc rnd key chunk = .error ("create block blob failed: " ++ e)) ∧
    (∀ svc₁, svcCreateBlockBlob svc (putName w key) = .ok svc₁ →
      svcPutBlock svc₁ (putName w key) (randBytes rnd 6) chunk = .error e →
      w.Put svc rnd key chunk = .error ("put block failed: " ++ e)) ∧
    (svcGetBlob svc (getName w key) = .error e → w.Get svc key = .error e) ∧
    (svcDeleteBlob svc (deleteName w key) = .error e → w.Delete svc key = .error e) := by
  refine ⟨?_, ?_, ?_, ?_⟩
  · intro h
    simp only [ABS.Put, h]
  · intro svc₁ h1 h2
    simp only [ABS.Put, h1, h2]
  · intro h
    simp only [ABS.Get, h]
  · intro h
    exact h

theorem error_propagation_shape_case :
    ABS.Put absW svcCreateFail rnd0 "k" [5] = .error "create block blob failed: e1" ∧
    ABS.Put absW svcBlockFail rnd0 "k" [5] = .error "put block failed: e2" ∧
    ABS.Get absW svcGetFail "k" = .error "e3" ∧
    ABS.Delete absW svcDeleteBoom "k" = .error "boom" :=
  ⟨(error_propagation_shape absW svcCreateFail rnd0 "k" [5] "e1").1 rfl,
   (error_propagation_shape absW svcBlockFail rnd0 "k" [5] "e2").2.1
     svcBlockFailMid rfl rfl,
   (error_propagation_shape absW svcGetFail rnd0 "k" [5] "e3").2.2.1 rfl,
   (error_propagation_shape absW svcDeleteBoom rnd0 "k" [5] "boom").2.2.2 rfl⟩

theorem digitVal_digitChar : ∀ d, d < 10 → digitVal (digitChar d) = d := by decide

theorem digitChar_isDigit : ∀ d, d < 10 → (digitChar d).isDigit = true := by decide

theorem toDecimalAux_all_digits :
    ∀ fuel n c, c ∈ toDecimalAux fuel n → c.isDigit = true := by
  intro fuel
  induction fuel with
  | zero => intro n c hc; simp [toDecimalAux] at hc
  | succ f ih =>
    intro n c hc
    simp only [toDecimalAux] at hc
    by_cases h : n < 10
    · rw [if_pos h] at hc
      simp only [List.mem_singleton] at hc
      subst hc
      exact digitChar_isDigit n h
    · rw [if_neg h] at hc
      rcases List.mem_append.mp hc with h1 | h2
      · exact ih _ _ h1
      · simp only [List.mem_singleton] at h2
        subst h2
        exact digitChar_isDigit _ (Nat.mod_lt _ (by omega))

theorem toDecimalAux_ne_nil (fuel n : Nat) (h : 0 < fuel) :
    toDecimalAux fuel n ≠ [] := by
  cases fuel with
  | zero => omega
  | succ f =>
    simp only [toDecimalAux]
    by_cases h10 : n < 10
    · rw [if_pos h10]; simp
    · rw [if_neg h10]; simp

theorem ofDecimal_zeros (k : Nat) (l : List Char) :
    ofDecimal (List.replicate k '0' ++ l) = ofDecimal l := by
  induction k with
  | zero => rfl
  | succ k ih => exact ih

theorem ofDecimal_append_digit (l : List Char) (c : Char) :
    ofDecimal (l ++ [c]) = ofDecimal l * 10 + digitVal c := by
  unfold ofDecimal
  rw [List.foldl_append]
  rfl

theorem ofDecimal_toDecimalAux :
    ∀ fuel n, n < fuel → ofDecimal (toDecimalAux fuel n) = n := by
  intro fuel
  induction fuel with
  | zero => intro n h; omega
  | succ f ih =>
    intro n h
    simp only [toDecimalAux]
    by_cases h10 : n < 10
    · rw [if_pos h10]
      show 0 * 10 + digitVal (digitChar n) = n
      rw [digitVal_digitChar n h10]
      omega
    · rw [if_neg h10]
      rw [ofDecimal_append_digit]
      have hlt : n / 10 < f := by
        have := Nat.div_lt_self (by omega : 0 < n) (by omega : 1 < 10)
        omega
      rw [ih _ hlt, digitVal_digitChar _ (Nat.mod_lt _ (by omega))]
      omega

theorem toDecimalAux_no_und (fuel n : Nat) : '_' ∉ toDecimalAux fuel n := by
  intro hc
  exact absurd (toDecimalAux_all_digits fuel n '_' hc) (by decide)

/-- C7 (spec-modelled): decoding the snapshot name produced by the name
encoder yields exactly the original `(version, revision)` pair, for
every valid dot-separated numeric version and every revision. -/
theorem encode_decode_round_trip (version : String) (revision : Nat)
    (hv : validVersion version) :
    decodeName (encodeName version revision) = some (version, revision) := by
  obtain ⟨hne, hchars⟩ := hv
  have hnu : '_' ∉ version.data := by
    intro hmem
    rcases hchars '_' hmem with h | h
    · exact absurd h (by decide)
    · exact absurd h (by decide)
  set padded := List.replicate (16 - (toDecimal revision).length) '0' ++ toDecimal revision
    with hpad
  have hdata : (encodeName version revision).data = version.data ++ '_' :: padded := by
    show ((version ++ "_") ++ String.mk padded).data = _
    rw [strData_append, strData_append]
    show (version.data ++ ['_']) ++ padded = version.data ++ '_' :: padded
    rw [List.append_assoc]
    rfl
  have hnup : '_' ∉ padded := by
    rw [hpad]
    intro hmem
    rcases List.mem_append.mp hmem with h | h
    · exact absurd (List.eq_of_mem_replicate h) (by decide)
    · exact toDecimalAux_no_und _ _ h
  have hpne : padded ≠ [] := by
    rw [hpad]
    intro hh
    rw [List.append_eq_nil] at hh
    exact toDecimalAux_ne_nil _ _ (by omega) hh.2
  have hdig : padded.all Char.isDigit = true := by
    rw [hpad, List.all_eq_true]
    intro c hc
    rcases List.mem_append.mp hc with h | h
    · rw [List.eq_of_mem_replicate h]
      decide
    · exact toDecimalAux_all_digits _ _ _ h
  have hval : ofDecimal padded = revision := by
    rw [hpad, ofDecimal_zeros]
    exact ofDecimal_toDecimalAux _ _ (by omega)
  unfold decodeName
  rw [hdata, splitOnChar_append '_' version.data padded hnu,
    splitOnChar_no_sep '_' padded hnup]
  show (if padded ≠ [] ∧ padded.all Char.isDigit then
      some (String.mk version.data, ofDecimal padded) else none)
    = some (version, revision)
  rw [if_pos ⟨hpne, hdig⟩, hval]

theorem encode_decode_round_trip_case :
    validVersion "3.1.0" ∧
    decodeName (encodeName "3.1.0" 2) = some ("3.1.0", 2) :=
  ⟨by decide, encode_decode_round_trip "3.1.0" 2 (by decide)⟩

/-- C2 (counterexample): the name is not always
`v1/<prefix>/<key>` - `path.Join` cleans the joined path, so the
caller-supplied key `..` collapses the name of adapter `absW`
(prefix `p`) to `v1`. -/
theorem blob_name_layout_cex :
    putName absW ".." = "v1" ∧ putName absW ".." ≠ "v1/" ++ "p" ++ "/" ++ ".." :=
  ⟨rfl, by decide⟩
